import Mathlib

set_option maxHeartbeats 1000000

/-!
Shallow embedding of the in-toto metadata core (signed-metadata container,
threshold signature verification, signature merging, the signing builder,
and validated path wrappers), together with theorems settling the spec
claims about it.

Machine strings are modelled as `List Char`, byte buffers as `List Nat`,
key identifiers as `Nat`.  The external crypto and codec collaborators are
explicit parameters: a `DataInterchange` record of fallible
serialize/deserialize/canonicalize functions, a signature-checking
predicate `pv : PublicKey → Bytes → Signature → Bool`, and a signing
function stored inside each `PrivateKey`.  Rust `HashMap`s are modelled as
association lists with the same insert-replaces semantics (`hmInsert`,
`hmOfList`, `hmGet`).
-/

abbrev KeyId := Nat

abbrev Bytes := List Nat

/-- Error taxonomy of the crate (`Error::Encoding`, `Error::IllegalArgument`,
`Error::VerificationFailure`). -/
inductive Error where
  | Encoding (msg : String)
  | IllegalArgument (msg : String)
  | VerificationFailure (msg : String)
  deriving DecidableEq, Repr

instance exceptDecidableEq {ε α : Type} [DecidableEq ε] [DecidableEq α] :
    DecidableEq (Except ε α) := fun x y =>
  match x, y with
  | .ok a, .ok b =>
    if h : a = b then .isTrue (by rw [h])
    else .isFalse (by intro hc; cases hc; exact h rfl)
  | .error a, .error b =>
    if h : a = b then .isTrue (by rw [h])
    else .isFalse (by intro hc; cases hc; exact h rfl)
  | .ok _, .error _ => .isFalse (by intro hc; cases hc)
  | .error _, .ok _ => .isFalse (by intro hc; cases hc)

/-- A signature pairs a key identifier with opaque signature data
(`crypto::Signature`). -/
structure Signature where
  key_id : KeyId
  sig : Nat
  deriving DecidableEq, Repr

/-- A public key: its identifier plus (abstract) key material
(`crypto::PublicKey`). -/
structure PublicKey where
  key_id : KeyId
  value : Nat
  deriving DecidableEq, Repr

/-- A private key: its identifier and its (fallible) low-level signing
function (`crypto::PrivateKey`). -/
structure PrivateKey where
  key_id : KeyId
  signFn : Bytes → Except Error Nat

/-- `PrivateKey::sign`: produce a `Signature` carrying this key's id over
the given message. -/
def PrivateKey.sign (k : PrivateKey) (msg : Bytes) : Except Error Signature :=
  match k.signFn msg with
  | .error e => .error e
  | .ok s => .ok ⟨k.key_id, s⟩

/-- The `DataInterchange` collaborator contract: a codec with fallible
serialize / deserialize / canonicalize. -/
structure DataInterchange (Raw M : Type) where
  serialize : M → Except Error Raw
  deserialize : Raw → Except Error M
  canonicalize : Raw → Except Error Bytes

/-! ### HashMap model

Rust `HashMap` collected from an iterator of pairs: inserting an existing
key replaces its value in place, a fresh key is appended.  Only the
entry set matters to the verified code; iteration order is modelled as
the resulting list order. -/

/-- `HashMap::insert`: replace the value at `k` if present, else add the
entry. -/
def hmInsert {α : Type} (m : List (KeyId × α)) (k : KeyId) (v : α) : List (KeyId × α) :=
  if m.any (fun p => p.1 == k) then
    m.map (fun p => if p.1 == k then (k, v) else p)
  else
    m ++ [(k, v)]

/-- Collecting an iterator of key-value pairs into a `HashMap`: later
pairs overwrite earlier ones with the same key. -/
def hmOfList {α : Type} (l : List (KeyId × α)) : List (KeyId × α) :=
  l.foldl (fun m p => hmInsert m p.1 p.2) []

/-- `HashMap::get`. -/
def hmGet {α : Type} (m : List (KeyId × α)) (k : KeyId) : Option α :=
  (m.find? (fun p => p.1 == k)).map Prod.snd

/-! ### SignedMetadata and verification -/

/-- `SignedMetadata`: an ordered sequence of signatures plus the raw
document representation (the `signed` field). -/
structure SignedMetadata (Raw : Type) where
  signatures : List Signature
  metadata : Raw
  deriving DecidableEq, Repr

/-- `SignedMetadata::assume_valid`: deserialize the raw document without
any signature checking. -/
def SignedMetadata.assume_valid {Raw M : Type} (di : DataInterchange Raw M)
    (sm : SignedMetadata Raw) : Except Error M :=
  di.deserialize sm.metadata

/-- One iteration of the verification loop body: look the signature's key
up among the authorized keys and check the signature cryptographically;
`true` exactly when this entry earns one unit of threshold credit. -/
def checkSig (pv : PublicKey → Bytes → Signature → Bool)
    (auth : List (KeyId × PublicKey)) (bytes : Bytes) (p : KeyId × Signature) : Bool :=
  match hmGet auth p.1 with
  | some pk => pv pk bytes p.2
  | none => false

/-- The verification scan: decrement the remaining-needed counter on each
good signature, stopping as soon as it reaches zero. -/
def verifyLoop (pv : PublicKey → Bytes → Signature → Bool)
    (auth : List (KeyId × PublicKey)) (bytes : Bytes) :
    List (KeyId × Signature) → Nat → Nat
  | [], needed => needed
  | p :: rest, needed =>
    let needed' := if checkSig pv auth bytes p then needed - 1 else needed
    if needed' = 0 then 0 else verifyLoop pv auth bytes rest needed'

/-- `SignedMetadata::verify`: threshold signature verification.  Fails if
there are no signatures or the threshold is not positive; otherwise builds
the authorized-key lookup, canonicalizes the document, deduplicates the
stored signatures by key id through a `HashMap`, scans with early exit and
finally deserializes the now-trusted document. -/
def SignedMetadata.verify {Raw M : Type} (di : DataInterchange Raw M)
    (pv : PublicKey → Bytes → Signature → Bool) (sm : SignedMetadata Raw)
    (threshold : Nat) (authorized_keys : List PublicKey) : Except Error M :=
  if sm.signatures.isEmpty then
    .error (.VerificationFailure "The metadata was not signed with any authorized keys.")
  else if threshold < 1 then
    .error (.VerificationFailure "Threshold must be strictly greater than zero")
  else
    let auth := hmOfList (authorized_keys.map (fun k => (k.key_id, k)))
    match di.canonicalize sm.metadata with
    | .error e => .error e
    | .ok canonical_bytes =>
      let sigmap := hmOfList (sm.signatures.map (fun s => (s.key_id, s)))
      let needed := verifyLoop pv auth canonical_bytes sigmap threshold
      if 0 < needed then
        .error (.VerificationFailure
          ("Signature threshold not met: " ++ toString (threshold - needed)
            ++ "/" ++ toString threshold))
      else
        sm.assume_valid di

/-- `SignedMetadata::merge_signatures` takes `&mut self`; it is modelled
as returning the pair (call result, state of `self` after the call).
Signatures of `other` whose key id is not already present are appended. -/
def SignedMetadata.merge_signatures {Raw : Type} [DecidableEq Raw]
    (sm other : SignedMetadata Raw) : Except Error Unit × SignedMetadata Raw :=
  if sm.metadata ≠ other.metadata then
    (.error (.IllegalArgument "Attempted to merge unequal metadata"), sm)
  else
    let key_ids := sm.signatures.map Signature.key_id
    (.ok (),
      { sm with
        signatures :=
          sm.signatures ++ other.signatures.filter (fun s => !(key_ids.contains s.key_id)) })

/-- `SignedMetadata::verify` takes `&self`; modelled as a call returning
the pair (result, state of the document after the call), which is the
unchanged document. -/
def SignedMetadata.verifyCall {Raw M : Type} (di : DataInterchange Raw M)
    (pv : PublicKey → Bytes → Signature → Bool) (sm : SignedMetadata Raw)
    (threshold : Nat) (authorized_keys : List PublicKey) :
    Except Error M × SignedMetadata Raw :=
  (sm.verify di pv threshold authorized_keys, sm)

/-! ### SignedMetadataBuilder -/

/-- `SignedMetadataBuilder`: a key-id-keyed signature map, the raw
document, and the canonical bytes computed once at construction. -/
structure SignedMetadataBuilder (Raw : Type) where
  signatures : List (KeyId × Signature)
  metadata : Raw
  metadata_bytes : Bytes

/-- `SignedMetadataBuilder::from_raw_metadata`: check the raw document
deserializes, canonicalize it eagerly, start with no signatures. -/
def SignedMetadataBuilder.from_raw_metadata {Raw M : Type} (di : DataInterchange Raw M)
    (metadata : Raw) : Except Error (SignedMetadataBuilder Raw) :=
  match di.deserialize metadata with
  | .error e => .error e
  | .ok (_ : M) =>
    match di.canonicalize metadata with
    | .error e => .error e
    | .ok metadata_bytes => .ok ⟨[], metadata, metadata_bytes⟩

/-- `SignedMetadataBuilder::from_metadata`: serialize then delegate to
`from_raw_metadata`. -/
def SignedMetadataBuilder.from_metadata {Raw M : Type} (di : DataInterchange Raw M)
    (m : M) : Except Error (SignedMetadataBuilder Raw) :=
  match di.serialize m with
  | .error e => .error e
  | .ok raw => SignedMetadataBuilder.from_raw_metadata di raw

/-- `SignedMetadataBuilder::sign`: sign the stored canonical bytes and
insert the signature keyed by its key id, replacing any previous signature
from the same key. -/
def SignedMetadataBuilder.sign {Raw : Type} (b : SignedMetadataBuilder Raw)
    (private_key : PrivateKey) : Except Error (SignedMetadataBuilder Raw) :=
  match private_key.sign b.metadata_bytes with
  | .error e => .error e
  | .ok sig => .ok { b with signatures := hmInsert b.signatures sig.key_id sig }

/-- A chain of `sign` calls, propagating the first error. -/
def SignedMetadataBuilder.signAll {Raw : Type} (b : SignedMetadataBuilder Raw) :
    List PrivateKey → Except Error (SignedMetadataBuilder Raw)
  | [] => .ok b
  | k :: ks =>
    match b.sign k with
    | .error e => .error e
    | .ok b' => b'.signAll ks

/-- Insert a signature into a list sorted ascending by key id. -/
def insertByKeyId (s : Signature) : List Signature → List Signature
  | [] => [s]
  | t :: ts => if s.key_id ≤ t.key_id then s :: t :: ts else t :: insertByKeyId s ts

/-- Sort a signature list ascending by key id (`sort_unstable_by` on
`a.key_id().cmp(b.key_id())`). -/
def sortByKeyId (l : List Signature) : List Signature :=
  l.foldr insertByKeyId []

/-- `SignedMetadataBuilder::build`: drain the signature map into a
sequence, sort ascending by key id, produce a `SignedMetadata`. -/
def SignedMetadataBuilder.build {Raw : Type} (b : SignedMetadataBuilder Raw) :
    SignedMetadata Raw :=
  { signatures := sortByKeyId (b.signatures.map Prod.snd), metadata := b.metadata }

/-! ### Path wrappers -/

/-- Modelled from the spec: `safe_path` (in `models/helpers.rs`, not part
of the provided sources) validates a path string.  Per the spec's data
model and the doctests of `MetadataPath::new`: the string must be
non-empty, must not start with a path separator, and no `/`-delimited
component may equal `..` exactly; accepted strings are not normalized. -/
def safe_path (path : List Char) : Except Error Unit :=
  if path = [] then
    .error (.IllegalArgument "Path cannot be empty")
  else if path.head? = some '/' then
    .error (.IllegalArgument "Cannot start from root")
  else if (path.splitOn '/').any (fun c => c == ['.', '.']) then
    .error (.IllegalArgument "Path cannot have a dotdot component")
  else
    .ok ()

/-- `MetadataPath`: a validated metadata path string, stored verbatim. -/
structure MetadataPath where
  path : List Char
  deriving DecidableEq, Repr

/-- `MetadataPath::new`. -/
def MetadataPath.new (path : List Char) : Except Error MetadataPath :=
  match safe_path path with
  | .error e => .error e
  | .ok _ => .ok ⟨path⟩

/-- `TargetPath`: a validated target path string, stored verbatim. -/
structure TargetPath where
  path : List Char
  deriving DecidableEq, Repr

/-- `TargetPath::new`. -/
def TargetPath.new (path : List Char) : Except Error TargetPath :=
  match safe_path path with
  | .error e => .error e
  | .ok _ => .ok ⟨path⟩

/-- `TargetPath::components`: split on `/`. -/
def TargetPath.components (t : TargetPath) : List (List Char) :=
  t.path.splitOn '/'

/-- `TargetPath::with_hash_prefix`: pop the last component, push
`"<hash>.<last>"`, join with `/` and re-validate.  The `None` branch
models the `unwrap` (unreachable because `splitOn` never returns an empty
list). -/
def TargetPath.withHashPrefixed (t : TargetPath) (hash : List Char) :
    Except Error TargetPath :=
  let components := t.components
  match components.getLast? with
  | none => .error (.IllegalArgument "unreachable: a path has at least one component")
  | some file_name =>
    TargetPath.new (List.intercalate ['/'] (components.dropLast ++ [hash ++ '.' :: file_name]))

/-! ### Link metadata -/

/-- Modelled from the spec: `LinkMetadata` (in `models/link/metadata.rs`,
not part of the provided sources) is "a plain data-transfer object with no
verification logic": named fields with accessors, and a constructor `new`
that just assembles the record. -/
structure LinkMetadata where
  name : String
  materials : List (String × String)
  products : List (String × String)
  env : List (String × String)
  byproducts : List (String × String)
  deriving DecidableEq, Repr

/-- Modelled from the spec: `LinkMetadata::new` assembles the plain
data-transfer object (no validation, always succeeds). -/
def LinkMetadata.new (name : String) (materials products env byproducts : List (String × String)) :
    Except Error LinkMetadata :=
  .ok ⟨name, materials, products, env, byproducts⟩

/-- `Link`: the wire shape of a link document, carrying a `_type` tag. -/
structure Link where
  typ : String
  name : String
  materials : List (String × String)
  products : List (String × String)
  env : List (String × String)
  byproducts : List (String × String)
  deriving DecidableEq, Repr

/-- `Link::from`: build the wire shape from a `LinkMetadata`, stamping the
`_type` field with `"link"`. -/
def Link.fromMeta (meta : LinkMetadata) : Except Error Link :=
  .ok ⟨"link", meta.name, meta.materials, meta.products, meta.env, meta.byproducts⟩

/-- `Link::try_into`: reject if the `_type` tag is not `"link"`, else
rebuild the `LinkMetadata`. -/
def Link.tryInto (l : Link) : Except Error LinkMetadata :=
  if l.typ ≠ "link" then
    .error (.Encoding ("Attempted to decode link metdata labeled as " ++ l.typ))
  else
    LinkMetadata.new l.name l.materials l.products l.env l.byproducts

/-! ### Helper lemmas: the verification scan -/

theorem verifyLoop_eq (pv : PublicKey → Bytes → Signature → Bool)
    (auth : List (KeyId × PublicKey)) (bytes : Bytes)
    (l : List (KeyId × Signature)) (needed : Nat) :
    verifyLoop pv auth bytes l needed = needed - l.countP (checkSig pv auth bytes) := by
  induction l generalizing needed with
  | nil => simp [verifyLoop]
  | cons p rest ih =>
    simp only [verifyLoop, List.countP_cons]
    by_cases hc : checkSig pv auth bytes p = true
    · simp only [if_pos hc]
      by_cases h0 : needed - 1 = 0
      · rw [if_pos h0]
        omega
      · rw [if_neg h0, ih]
        omega
    · simp only [if_neg hc]
      by_cases h0 : needed = 0
      · rw [if_pos h0]
        omega
      · rw [if_neg h0, ih]
        omega

/-! ### Helper lemmas: the HashMap model -/

theorem any_keys_iff {α : Type} (m : List (KeyId × α)) (k : KeyId) :
    m.any (fun p => p.1 == k) = true ↔ k ∈ m.map Prod.fst := by
  simp only [List.any_eq_true, List.mem_map, beq_iff_eq]

theorem hmInsert_keys {α : Type} (m : List (KeyId × α)) (k : KeyId) (v : α) :
    (hmInsert m k v).map Prod.fst =
      if k ∈ m.map Prod.fst then m.map Prod.fst else m.map Prod.fst ++ [k] := by
  unfold hmInsert
  by_cases h : m.any (fun p => p.1 == k) = true
  · rw [if_pos h, if_pos ((any_keys_iff m k).1 h)]
    rw [List.map_map]
    apply List.map_congr_left
    intro p _
    by_cases hp : p.1 = k
    · simp [Function.comp, hp]
    · simp [Function.comp, hp]
  · rw [if_neg h, if_neg (fun hm => h ((any_keys_iff m k).2 hm))]
    simp

theorem mem_hmInsert {α : Type} {m : List (KeyId × α)} {k : KeyId} {v : α}
    {p : KeyId × α} (h : p ∈ hmInsert m k v) : p ∈ m ∨ p = (k, v) := by
  unfold hmInsert at h
  by_cases ha : m.any (fun q => q.1 == k) = true
  · rw [if_pos ha] at h
    obtain ⟨q, hq, he⟩ := List.mem_map.1 h
    by_cases hqk : q.1 = k
    · right
      rw [if_pos (by simpa using hqk)] at he
      exact he.symm
    · left
      rw [if_neg (by simpa using hqk)] at he
      exact he ▸ hq
  · rw [if_neg ha] at h
    rcases List.mem_append.1 h with h' | h'
    · exact Or.inl h'
    · exact Or.inr (List.mem_singleton.1 h')

theorem hmOfList_concat {α : Type} (l : List (KeyId × α)) (p : KeyId × α) :
    hmOfList (l ++ [p]) = hmInsert (hmOfList l) p.1 p.2 := by
  unfold hmOfList
  rw [List.foldl_append]
  rfl

theorem foldl_insert_keys_sub {α : Type} (l : List (KeyId × α)) :
    ∀ (acc : List (KeyId × α)) (k : KeyId),
      k ∈ (l.foldl (fun m p => hmInsert m p.1 p.2) acc).map Prod.fst →
      k ∈ acc.map Prod.fst ∨ k ∈ l.map Prod.fst := by
  induction l with
  | nil => intro acc k h; exact Or.inl h
  | cons p l ih =>
    intro acc k h
    rw [List.foldl_cons] at h
    rcases ih (hmInsert acc p.1 p.2) k h with h' | h'
    · rw [hmInsert_keys] at h'
      by_cases hp : p.1 ∈ acc.map Prod.fst
      · rw [if_pos hp] at h'
        exact Or.inl h'
      · rw [if_neg hp] at h'
        rcases List.mem_append.1 h' with h'' | h''
        · exact Or.inl h''
        · right
          simp [List.mem_singleton.1 h'']
    · right
      simp [h']

theorem hmOfList_keys_sub {α : Type} (l : List (KeyId × α)) (k : KeyId)
    (h : k ∈ (hmOfList l).map Prod.fst) : k ∈ l.map Prod.fst := by
  rcases foldl_insert_keys_sub l [] k h with h' | h'
  · simp at h'
  · exact h'

theorem foldl_insert_nodup {α : Type} (l : List (KeyId × α)) :
    ∀ acc : List (KeyId × α), ((acc ++ l).map Prod.fst).Nodup →
      l.foldl (fun m p => hmInsert m p.1 p.2) acc = acc ++ l := by
  induction l with
  | nil => intro acc _; simp
  | cons p l ih =>
    intro acc h
    have hsplit := h
    rw [List.map_append] at hsplit
    obtain ⟨_, hnd2, hdisj⟩ := List.nodup_append.1 hsplit
    have hfresh : p.1 ∉ acc.map Prod.fst := by
      intro hmem
      exact hdisj hmem (by simp)
    have hins : hmInsert acc p.1 p.2 = acc ++ [p] := by
      unfold hmInsert
      rw [if_neg (fun ha => hfresh ((any_keys_iff acc p.1).1 ha))]
    rw [List.foldl_cons, hins, ih (acc ++ [p]) (by simpa using h)]
    simp

theorem hmOfList_of_nodup {α : Type} (l : List (KeyId × α))
    (h : (l.map Prod.fst).Nodup) : hmOfList l = l := by
  have := foldl_insert_nodup l [] (by simpa using h)
  simpa [hmOfList] using this

/-! ### Helper lemmas: characterizing `verify` -/

/-- The authorized-key lookup built by `verify`. -/
def authMap (authorized_keys : List PublicKey) : List (KeyId × PublicKey) :=
  hmOfList (authorized_keys.map (fun k => (k.key_id, k)))

/-- The key-id-deduplicated signature map built by `verify`. -/
def sigMap (sigs : List Signature) : List (KeyId × Signature) :=
  hmOfList (sigs.map (fun s => (s.key_id, s)))

/-- The number of entries of the deduplicated signature map whose
surviving signature is from an authorized key and cryptographically
valid over `bytes`. -/
def verifiedCount (pv : PublicKey → Bytes → Signature → Bool)
    (authorized_keys : List PublicKey) (bytes : Bytes) (sigs : List Signature) : Nat :=
  (sigMap sigs).countP (checkSig pv (authMap authorized_keys) bytes)

theorem verify_ok_iff {Raw M : Type} (di : DataInterchange Raw M)
    (pv : PublicKey → Bytes → Signature → Bool) (sm : SignedMetadata Raw)
    (t : Nat) (keys : List PublicKey) (m : M) :
    sm.verify di pv t keys = .ok m ↔
      1 ≤ t ∧ ∃ bytes, di.canonicalize sm.metadata = .ok bytes ∧
        t ≤ verifiedCount pv keys bytes sm.signatures ∧
        di.deserialize sm.metadata = .ok m := by
  unfold SignedMetadata.verify
  by_cases he : sm.signatures.isEmpty = true
  · rw [if_pos he]
    constructor
    · intro h
      exact absurd h (by simp)
    · rintro ⟨ht, bytes, _, hcount, _⟩
      have hnil : sm.signatures = [] := List.isEmpty_iff.1 he
      rw [hnil] at hcount
      simp [verifiedCount, sigMap, hmOfList] at hcount
      omega
  · rw [if_neg he]
    by_cases ht : t < 1
    · rw [if_pos ht]
      constructor
      · intro h
        exact absurd h (by simp)
      · rintro ⟨ht', _⟩
        omega
    · rw [if_neg ht]
      split
      · rename_i e hc
        constructor
        · intro h
          exact absurd h (by simp)
        · rintro ⟨_, bytes, hc', _⟩
          rw [hc] at hc'
          exact absurd hc' (by simp)
      · rename_i bytes hc
        simp only [verifyLoop_eq]
        by_cases hn : 0 < t - (sigMap sm.signatures).countP (checkSig pv (authMap keys) bytes)
        · rw [if_pos (by simpa [sigMap, authMap] using hn)]
          constructor
          · intro h
            exact absurd h (by simp)
          · rintro ⟨_, bytes', hc', hcount, _⟩
            rw [hc] at hc'
            cases hc'
            simp only [verifiedCount] at hcount
            omega
        · rw [if_neg (by simpa [sigMap, authMap] using hn)]
          unfold SignedMetadata.assume_valid
          constructor
          · intro h
            exact ⟨by omega, bytes, hc, by simp only [verifiedCount]; omega, h⟩
          · rintro ⟨_, bytes', hc', _, hd⟩
            exact hd

theorem verify_eq_ok {Raw M : Type} (di : DataInterchange Raw M)
    (pv : PublicKey → Bytes → Signature → Bool) (sm : SignedMetadata Raw)
    (t : Nat) (keys : List PublicKey) (bytes : Bytes)
    (hc : di.canonicalize sm.metadata = .ok bytes) :
    sm.verify di pv t keys =
      if sm.signatures.isEmpty then
        .error (.VerificationFailure "The metadata was not signed with any authorized keys.")
      else if t < 1 then
        .error (.VerificationFailure "Threshold must be strictly greater than zero")
      else if 0 < t - verifiedCount pv keys bytes sm.signatures then
        .error (.VerificationFailure
          ("Signature threshold not met: "
            ++ toString (t - (t - verifiedCount pv keys bytes sm.signatures))
            ++ "/" ++ toString t))
      else
        di.deserialize sm.metadata := by
  unfold SignedMetadata.verify SignedMetadata.assume_valid
  rw [hc]
  simp only [verifyLoop_eq, verifiedCount, sigMap, authMap]

theorem verifiedCount_perm (pv : PublicKey → Bytes → Signature → Bool)
    (keys : List PublicKey) (bytes : Bytes) {sigs1 sigs2 : List Signature}
    (hnd : (sigs2.map Signature.key_id).Nodup) (hp : sigs1.Perm sigs2) :
    verifiedCount pv keys bytes sigs1 = verifiedCount pv keys bytes sigs2 := by
  have hnd1 : (sigs1.map Signature.key_id).Nodup :=
    ((hp.map Signature.key_id).nodup_iff).2 hnd
  have e1 : sigMap sigs1 = sigs1.map (fun s => (s.key_id, s)) :=
    hmOfList_of_nodup _ (by simpa [List.map_map, Function.comp] using hnd1)
  have e2 : sigMap sigs2 = sigs2.map (fun s => (s.key_id, s)) :=
    hmOfList_of_nodup _ (by simpa [List.map_map, Function.comp] using hnd)
  rw [verifiedCount, verifiedCount, e1, e2]
  exact (hp.map _).countP_eq _

theorem verifiedCount_append_bad (pv : PublicKey → Bytes → Signature → Bool)
    (keys : List PublicKey) (bytes : Bytes) (sigs : List Signature) (s0 : Signature)
    (hfresh : s0.key_id ∉ sigs.map Signature.key_id)
    (hbad : checkSig pv (authMap keys) bytes (s0.key_id, s0) = false) :
    verifiedCount pv keys bytes (sigs ++ [s0]) = verifiedCount pv keys bytes sigs := by
  unfold verifiedCount sigMap
  rw [List.map_append]
  have hconc :
      hmOfList ((sigs.map fun s => (s.key_id, s)) ++ [(s0.key_id, s0)]) =
        hmOfList (sigs.map fun s => (s.key_id, s)) ++ [(s0.key_id, s0)] := by
    rw [hmOfList_concat]
    unfold hmInsert
    rw [if_neg ?hfresh]
    case hfresh =>
      intro ha
      apply hfresh
      have hin := hmOfList_keys_sub _ _ ((any_keys_iff _ _).1 ha)
      simpa [List.map_map, Function.comp] using hin
  simp only [List.map_cons, List.map_nil] at hconc ⊢
  rw [hconc, List.countP_append]
  simp [hbad]

/-! ### Concrete collaborator instances for closed evaluations -/

/-- A concrete codec over `Raw := List Nat`, `M := Nat`: canonical bytes
are the raw data itself, deserialization reads the head. -/
def diN : DataInterchange (List Nat) Nat :=
  { serialize := fun m => .ok [m]
    deserialize := fun r => .ok (r.headD 0)
    canonicalize := fun r => .ok r }

/-- A concrete signature-checking collaborator: a signature is valid for a
public key over given bytes iff its data equals the key material plus the
byte count (a toy MAC). -/
def pvN (pk : PublicKey) (bytes : Bytes) (s : Signature) : Bool :=
  s.sig == pk.value + bytes.length

/-- A concrete authorized public key with key id 5. -/
def pk5 : PublicKey := ⟨5, 100⟩

/-- Whether a verification result is an `Error::VerificationFailure`. -/
def isVerFailure {M : Type} : Except Error M → Bool
  | .error (.VerificationFailure _) => true
  | _ => false

/-- Claim C1, counterexample.  A document carrying two signature entries
for the one authorized key id 5 — first a cryptographically valid one,
then an invalid one — is rejected at threshold 1, although the set of
distinct authorized key ids with a valid signature over the canonical
bytes is {5}, of size 1 ≥ 1; and reversing the stored order makes the
same call succeed, so the result is not invariant under reordering
either. -/
theorem C1_counterexample :
    SignedMetadata.verify diN pvN ⟨[⟨5, 102⟩, ⟨5, 0⟩], [1, 2]⟩ 1 [pk5]
        = .error (.VerificationFailure "Signature threshold not met: 0/1") ∧
    SignedMetadata.verify diN pvN ⟨[⟨5, 0⟩, ⟨5, 102⟩], [1, 2]⟩ 1 [pk5] = .ok 1 ∧
    List.Perm [(⟨5, 0⟩ : Signature), ⟨5, 102⟩] [⟨5, 102⟩, ⟨5, 0⟩] ∧
    diN.canonicalize [1, 2] = .ok [1, 2] ∧
    pvN pk5 [1, 2] ⟨5, 102⟩ = true ∧
    pk5.key_id = 5 := by
  refine ⟨rfl, rfl, by decide, rfl, rfl, rfl⟩

/-- Claim C1 (amended): for threshold `t ≥ 1`, when canonicalization and
deserialization of the stored document succeed, `verify` succeeds iff at
least `t` entries of the key-id-deduplicated signature map (which keeps,
for each key id, the last stored signature entry) are authorized and
cryptographically valid over the canonical bytes.  The result is
unchanged under reordering of the stored signature sequence provided each
key id occurs at most once, and the success/failure status is unchanged
under appending an extra signature that has a fresh key id and is
unauthorized or cryptographically invalid. -/
theorem C1_amended {Raw M : Type} (di : DataInterchange Raw M)
    (pv : PublicKey → Bytes → Signature → Bool) (sm : SignedMetadata Raw)
    (t : Nat) (keys : List PublicKey) (bytes : Bytes) (m : M)
    (ht : 1 ≤ t) (hc : di.canonicalize sm.metadata = .ok bytes)
    (hd : di.deserialize sm.metadata = .ok m) :
    (sm.verify di pv t keys = .ok m ↔ t ≤ verifiedCount pv keys bytes sm.signatures) ∧
    ((sm.signatures.map Signature.key_id).Nodup →
      ∀ sigs' : List Signature, sigs'.Perm sm.signatures →
        SignedMetadata.verify di pv ⟨sigs', sm.metadata⟩ t keys =
          sm.verify di pv t keys) ∧
    (∀ s0 : Signature, s0.key_id ∉ sm.signatures.map Signature.key_id →
      checkSig pv (authMap keys) bytes (s0.key_id, s0) = false →
      ((∃ m' : M, SignedMetadata.verify di pv ⟨sm.signatures ++ [s0], sm.metadata⟩ t keys
          = .ok m') ↔
        (∃ m' : M, sm.verify di pv t keys = .ok m'))) := by
  refine ⟨?_, ?_, ?_⟩
  · constructor
    · intro h
      obtain ⟨_, bytes', hc', hcount, _⟩ := (verify_ok_iff di pv sm t keys m).1 h
      rw [hc] at hc'
      cases hc'
      exact hcount
    · intro hcount
      exact (verify_ok_iff di pv sm t keys m).2 ⟨ht, bytes, hc, hcount, hd⟩
  · intro hnd sigs' hp
    have hie : sigs'.isEmpty = sm.signatures.isEmpty := by
      have h1 := hp.length_eq
      cases sigs' <;> cases hs : sm.signatures <;> simp_all
    rw [verify_eq_ok di pv ⟨sigs', sm.metadata⟩ t keys bytes hc,
      verify_eq_ok di pv sm t keys bytes hc]
    simp only [hie, verifiedCount_perm pv keys bytes hnd hp]
  · intro s0 hfresh hbad
    have hcnt := verifiedCount_append_bad pv keys bytes sm.signatures s0 hfresh hbad
    constructor
    · rintro ⟨m', h⟩
      obtain ⟨_, bytes', hc', hcount, hd'⟩ :=
        (verify_ok_iff di pv ⟨sm.signatures ++ [s0], sm.metadata⟩ t keys m').1 h
      rw [hc] at hc'
      cases hc'
      rw [hcnt] at hcount
      exact ⟨m', (verify_ok_iff di pv sm t keys m').2 ⟨ht, bytes, hc, hcount, hd'⟩⟩
    · rintro ⟨m', h⟩
      obtain ⟨_, bytes', hc', hcount, hd'⟩ := (verify_ok_iff di pv sm t keys m').1 h
      rw [hc] at hc'
      cases hc'
      rw [← hcnt] at hcount
      exact ⟨m', (verify_ok_iff di pv ⟨sm.signatures ++ [s0], sm.metadata⟩ t keys m').2
        ⟨ht, bytes, hc, hcount, hd'⟩⟩

/-- Claim C1 (amended), witness: the amended characterization applied at a
concrete document signed once by the authorized key 5 at threshold 1. -/
theorem C1_amended_witness :
    SignedMetadata.verify diN pvN ⟨[⟨5, 102⟩], [1, 2]⟩ 1 [pk5] = .ok 1 :=
  ((C1_amended diN pvN ⟨[⟨5, 102⟩], [1, 2]⟩ 1 [pk5] [1, 2] 1
    (by decide) rfl rfl).1).2 (by decide)

/-- Claim C2: with zero stored signatures (any threshold), or with
threshold < 1 (any signature set), `verify` returns a
`VerificationFailure` error — it neither succeeds nor returns a different
error kind. -/
theorem C2_trivial_rejections {Raw M : Type} (di : DataInterchange Raw M)
    (pv : PublicKey → Bytes → Signature → Bool) (sm : SignedMetadata Raw)
    (t : Nat) (keys : List PublicKey) (h : sm.signatures = [] ∨ t = 0) :
    isVerFailure (sm.verify di pv t keys) = true := by
  unfold SignedMetadata.verify
  rcases h with h | h
  · rw [h]
    rfl
  · rw [h]
    by_cases he : sm.signatures.isEmpty = true
    · rw [if_pos he]
      rfl
    · rw [if_neg he]
      rfl

/-- Claim C2, witness: both rejection cases evaluated on concrete
documents. -/
theorem C2_trivial_rejections_witness :
    isVerFailure (SignedMetadata.verify diN pvN ⟨[], [1, 2]⟩ 7 [pk5]) = true ∧
    isVerFailure (SignedMetadata.verify diN pvN ⟨[⟨5, 102⟩], [1, 2]⟩ 0 [pk5]) = true :=
  ⟨C2_trivial_rejections diN pvN ⟨[], [1, 2]⟩ 7 [pk5] (Or.inl rfl),
    C2_trivial_rejections diN pvN ⟨[⟨5, 102⟩], [1, 2]⟩ 0 [pk5] (Or.inr rfl)⟩

/-! ### Claims about merge_signatures and the frame behavior of verify -/

/-- Claim C5: `merge_signatures(a, b)` fails with `IllegalArgument`
exactly when the raw payloads differ; on equal payloads it succeeds and
the resulting signature sequence is `a`'s signatures, unchanged and in
their original order, followed by exactly those signatures of `b` whose
key id is not already present in `a` — hence its key-id set is the union
of both key-id sets, with `a`'s signature kept on collision. -/
theorem C5_merge_characterization {Raw : Type} [DecidableEq Raw]
    (a b : SignedMetadata Raw) :
    ((∃ s, (a.merge_signatures b).1 = .error (.IllegalArgument s)) ↔
      a.metadata ≠ b.metadata) ∧
    (a.merge_signatures b).2.metadata = a.metadata ∧
    (a.merge_signatures b).2.signatures =
      (if a.metadata = b.metadata then
        a.signatures ++ b.signatures.filter
          (fun s => !((a.signatures.map Signature.key_id).contains s.key_id))
       else a.signatures) ∧
    (a.metadata = b.metadata → (a.merge_signatures b).1 = .ok ()) ∧
    (∀ kid : KeyId,
      kid ∈ (a.merge_signatures b).2.signatures.map Signature.key_id ↔
        (kid ∈ a.signatures.map Signature.key_id ∨
          (a.metadata = b.metadata ∧ kid ∈ b.signatures.map Signature.key_id))) := by
  unfold SignedMetadata.merge_signatures
  by_cases hmd : a.metadata = b.metadata
  · rw [if_neg (by simpa using hmd)]
    refine ⟨by simp [hmd], rfl, by rw [if_pos hmd], fun _ => rfl, ?_⟩
    intro kid
    show kid ∈ (a.signatures ++ _).map Signature.key_id ↔ _
    rw [List.map_append, List.mem_append]
    constructor
    · rintro (h | h)
      · exact Or.inl h
      · right
        refine ⟨hmd, ?_⟩
        obtain ⟨s, hs, he⟩ := List.mem_map.1 h
        exact List.mem_map.2 ⟨s, (List.mem_filter.1 hs).1, he⟩
    · rintro (h | ⟨_, h⟩)
      · exact Or.inl h
      · by_cases hk : kid ∈ a.signatures.map Signature.key_id
        · exact Or.inl hk
        · right
          obtain ⟨s, hs, he⟩ := List.mem_map.1 h
          refine List.mem_map.2 ⟨s, List.mem_filter.2 ⟨hs, ?_⟩, he⟩
          show (!((a.signatures.map Signature.key_id).contains s.key_id)) = true
          simp only [Bool.not_eq_true']
          refine Bool.eq_false_iff.2 (fun hcon => hk ?_)
          exact he ▸ List.elem_iff.1 hcon
  · rw [if_pos (by simpa using hmd)]
    refine ⟨by simp [hmd], rfl, by rw [if_neg hmd], fun h => absurd h hmd, ?_⟩
    intro kid
    simp [hmd]

/-- Claim C5, witness: merging two concrete documents with equal payloads
keeps `a`'s signature for the shared key id 2 and appends `b`'s signature
for the fresh key id 3. -/
theorem C5_merge_characterization_witness :
    (SignedMetadata.merge_signatures (⟨[⟨1, 10⟩, ⟨2, 20⟩], [9]⟩ : SignedMetadata (List Nat))
        ⟨[⟨2, 99⟩, ⟨3, 30⟩], [9]⟩).2.signatures
      = [⟨1, 10⟩, ⟨2, 20⟩, ⟨3, 30⟩] := by
  have h := (C5_merge_characterization
    (⟨[⟨1, 10⟩, ⟨2, 20⟩], [9]⟩ : SignedMetadata (List Nat)) ⟨[⟨2, 99⟩, ⟨3, 30⟩], [9]⟩).2.2.1
  rw [h]
  rfl

/-- Claim C8: `verify` borrows the document immutably, so the modelled
call returns the document unchanged, and repeating the call on the
document coming out of a first call, with the same arguments, yields the
same result: verification is non-destructive and repeatable. -/
theorem C8_verify_nondestructive {Raw M : Type} (di : DataInterchange Raw M)
    (pv : PublicKey → Bytes → Signature → Bool) (sm : SignedMetadata Raw)
    (t : Nat) (keys : List PublicKey) :
    (SignedMetadata.verifyCall di pv sm t keys).2 = sm ∧
    (SignedMetadata.verifyCall di pv (SignedMetadata.verifyCall di pv sm t keys).2 t keys).1
      = (SignedMetadata.verifyCall di pv sm t keys).1 :=
  ⟨rfl, rfl⟩

/-- Claim C9: when the two payloads differ, `merge_signatures` fails with
`IllegalArgument` and leaves `self` completely unchanged — the error path
returns before touching the signature sequence. -/
theorem C9_merge_failure_frame {Raw : Type} [DecidableEq Raw]
    (a b : SignedMetadata Raw) (h : a.metadata ≠ b.metadata) :
    (a.merge_signatures b).2 = a ∧
    (a.merge_signatures b).1 = .error (.IllegalArgument "Attempted to merge unequal metadata") := by
  unfold SignedMetadata.merge_signatures
  rw [if_pos h]
  exact ⟨rfl, rfl⟩

/-- Claim C9, witness: a failing merge of two concrete documents with
different payloads returns `self` as it was. -/
theorem C9_merge_failure_frame_witness :
    (SignedMetadata.merge_signatures (⟨[⟨1, 10⟩], [1]⟩ : SignedMetadata (List Nat))
      ⟨[⟨2, 20⟩], [2]⟩).2 = ⟨[⟨1, 10⟩], [1]⟩ :=
  (C9_merge_failure_frame ⟨[⟨1, 10⟩], [1]⟩ ⟨[⟨2, 20⟩], [2]⟩ (by decide)).1

/-! ### Helper lemmas: the builder -/

theorem from_raw_spec {Raw M : Type} (di : DataInterchange Raw M) (raw : Raw)
    (b0 : SignedMetadataBuilder Raw)
    (h : SignedMetadataBuilder.from_raw_metadata di raw = .ok b0) :
    b0.signatures = [] ∧ b0.metadata = raw ∧ di.canonicalize raw = .ok b0.metadata_bytes := by
  unfold SignedMetadataBuilder.from_raw_metadata at h
  split at h
  · exact absurd h (by simp)
  · split at h
    · exact absurd h (by simp)
    · rename_i hc
      cases h
      exact ⟨rfl, rfl, hc⟩

theorem sign_key_id (k : PrivateKey) (m : Bytes) (sig : Signature)
    (h : k.sign m = .ok sig) : sig.key_id = k.key_id := by
  unfold PrivateKey.sign at h
  split at h
  · exact absurd h (by simp)
  · cases h
    rfl

theorem sign_spec {Raw : Type} (b b' : SignedMetadataBuilder Raw) (k : PrivateKey)
    (h : b.sign k = .ok b') :
    b'.metadata = b.metadata ∧ b'.metadata_bytes = b.metadata_bytes ∧
    ∃ sig, PrivateKey.sign k b.metadata_bytes = .ok sig ∧
      b'.signatures = hmInsert b.signatures sig.key_id sig := by
  unfold SignedMetadataBuilder.sign at h
  split at h
  · exact absurd h (by simp)
  · rename_i sig hsig
    cases h
    exact ⟨rfl, rfl, sig, hsig, rfl⟩

theorem signAll_spec {Raw : Type} (ks : List PrivateKey) :
    ∀ b0 b : SignedMetadataBuilder Raw, b0.signAll ks = .ok b →
      b.metadata = b0.metadata ∧ b.metadata_bytes = b0.metadata_bytes ∧
      ∀ p ∈ b.signatures, p ∈ b0.signatures ∨
        (p.1 = p.2.key_id ∧ ∃ k ∈ ks, PrivateKey.sign k b0.metadata_bytes = .ok p.2) := by
  induction ks with
  | nil =>
    intro b0 b h
    unfold SignedMetadataBuilder.signAll at h
    cases h
    exact ⟨rfl, rfl, fun p hp => Or.inl hp⟩
  | cons k ks ih =>
    intro b0 b h
    unfold SignedMetadataBuilder.signAll at h
    split at h
    · exact absurd h (by simp)
    · rename_i b1 hb1
      obtain ⟨hm, hbytes, hmem⟩ := ih b1 b h
      obtain ⟨hm1, hbytes1, sig, hsig, hsigs⟩ := sign_spec b0 b1 k hb1
      refine ⟨hm.trans hm1, hbytes.trans hbytes1, ?_⟩
      intro p hp
      rcases hmem p hp with hp' | ⟨hkid, k', hk', hsig'⟩
      · rw [hsigs] at hp'
        rcases mem_hmInsert hp' with hp'' | hp''
        · exact Or.inl hp''
        · right
          subst hp''
          exact ⟨rfl, k, List.mem_cons_self k ks, hsig⟩
      · refine Or.inr ⟨hkid, k', List.mem_cons_of_mem k hk', ?_⟩
        rw [← hbytes1]
        exact hsig'

/-- Claim C3: for a builder constructed by `from_raw_metadata` and
transformed by any sequence of `sign` calls, the stored `metadata` is the
raw document given at construction and the stored `metadata_bytes` is its
canonicalization: neither field ever changes, and every signature held by
the builder was produced by one of the signing keys over exactly the
stored canonical bytes.  `from_metadata` factors through
`from_raw_metadata` on the serialized document. -/
theorem C3_builder_invariant {Raw M : Type} (di : DataInterchange Raw M) (raw : Raw)
    (b0 b : SignedMetadataBuilder Raw) (ks : List PrivateKey)
    (h0 : SignedMetadataBuilder.from_raw_metadata di raw = .ok b0)
    (hs : b0.signAll ks = .ok b) :
    b.metadata = raw ∧
    b.metadata_bytes = b0.metadata_bytes ∧
    di.canonicalize b.metadata = .ok b.metadata_bytes ∧
    (∀ p ∈ b.signatures, p.1 = p.2.key_id ∧
      ∃ k ∈ ks, PrivateKey.sign k b.metadata_bytes = .ok p.2) ∧
    (∀ (m : M) (b' : SignedMetadataBuilder Raw),
      SignedMetadataBuilder.from_metadata di m = .ok b' →
      ∃ raw', di.serialize m = .ok raw' ∧
        SignedMetadataBuilder.from_raw_metadata di raw' = .ok b') := by
  obtain ⟨hsig0, hmd0, hc0⟩ := from_raw_spec di raw b0 h0
  obtain ⟨hm, hbytes, hmem⟩ := signAll_spec ks b0 b hs
  refine ⟨hm.trans hmd0, hbytes, ?_, ?_, ?_⟩
  · rw [hm.trans hmd0, hbytes]
    exact hc0
  · intro p hp
    rcases hmem p hp with hp' | ⟨hkid, k, hk, hsig⟩
    · rw [hsig0] at hp'
      exact absurd hp' (List.not_mem_nil p)
    · exact ⟨hkid, k, hk, by rw [hbytes]; exact hsig⟩
  · intro m b' h'
    unfold SignedMetadataBuilder.from_metadata at h'
    split at h'
    · exact absurd h' (by simp)
    · rename_i raw' hser
      exact ⟨raw', hser, h'⟩

/-- A concrete private key with key id 1 (a toy MAC signer). -/
def sk1 : PrivateKey := ⟨1, fun bs => .ok (bs.length + 11)⟩

/-- A concrete private key with key id 2 (a toy MAC signer). -/
def sk2 : PrivateKey := ⟨2, fun bs => .ok (bs.length + 22)⟩

/-- The builder obtained from `from_raw_metadata` on `[3, 4]` over `diN`
and signed with `sk1` then `sk2`. -/
def bldN : SignedMetadataBuilder (List Nat) :=
  ⟨[(1, ⟨1, 13⟩), (2, ⟨2, 24⟩)], [3, 4], [3, 4]⟩

/-- Claim C3, witness: the builder invariant applied to a concrete run of
`from_raw_metadata` followed by two `sign` calls. -/
theorem C3_builder_invariant_witness :
    bldN.metadata = [3, 4] ∧ diN.canonicalize bldN.metadata = .ok bldN.metadata_bytes :=
  ⟨(C3_builder_invariant diN [3, 4] ⟨[], [3, 4], [3, 4]⟩ bldN [sk1, sk2] rfl rfl).1,
    (C3_builder_invariant diN [3, 4] ⟨[], [3, 4], [3, 4]⟩ bldN [sk1, sk2] rfl rfl).2.2.1⟩



theorem hmInsert_hmInsert_same {α : Type} (m : List (KeyId × α)) (k : KeyId) (v w : α) :
    hmInsert (hmInsert m k v) k w = hmInsert m k w := by
  by_cases ha : m.any (fun p => p.1 == k) = true
  · have hk : k ∈ m.map Prod.fst := (any_keys_iff m k).1 ha
    have ha2 : (hmInsert m k v).any (fun p => p.1 == k) = true := by
      rw [any_keys_iff, hmInsert_keys, if_pos hk]
      exact hk
    show (if _ then _ else _) = _
    rw [if_pos ha2]
    have hv : hmInsert m k v = m.map (fun p => if p.1 == k then (k, v) else p) := by
      unfold hmInsert
      rw [if_pos ha]
    rw [hv, List.map_map]
    unfold hmInsert
    rw [if_pos ha]
    apply List.map_congr_left
    intro p _
    by_cases hp : p.1 = k
    · simp [Function.comp, hp]
    · simp [Function.comp, hp]
  · have hnk : ∀ p ∈ m, (p.1 == k) = false := by
      intro p hp
      rcases Bool.eq_false_or_eq_true (p.1 == k) with h | h
      · exact absurd (List.any_eq_true.2 ⟨p, hp, h⟩) ha
      · exact h
    have hv : hmInsert m k v = m ++ [(k, v)] := by
      unfold hmInsert
      rw [if_neg ha]
    have ha2 : (hmInsert m k v).any (fun p => p.1 == k) = true := by
      rw [hv]
      exact List.any_eq_true.2 ⟨(k, v), by simp, by simp⟩
    show (if _ then _ else _) = _
    rw [if_pos ha2, hv, List.map_append]
    have hmap : m.map (fun p => if p.1 == k then (k, w) else p) = m := by
      conv_rhs => rw [← List.map_id m]
      apply List.map_congr_left
      intro p hp
      simp [hnk p hp]
    rw [hmap]
    unfold hmInsert
    rw [if_neg ha]
    simp

theorem mem_keys_hmInsert {α : Type} (m : List (KeyId × α)) (k : KeyId) (v : α) (kid : KeyId) :
    kid ∈ (hmInsert m k v).map Prod.fst ↔ kid ∈ m.map Prod.fst ∨ kid = k := by
  rw [hmInsert_keys]
  by_cases h : k ∈ m.map Prod.fst
  · rw [if_pos h]
    constructor
    · exact Or.inl
    · rintro (h' | rfl)
      · exact h'
      · exact h
  · rw [if_neg h]
    simp [List.mem_append]

theorem nodup_keys_hmInsert {α : Type} (m : List (KeyId × α)) (k : KeyId) (v : α)
    (h : (m.map Prod.fst).Nodup) : ((hmInsert m k v).map Prod.fst).Nodup := by
  rw [hmInsert_keys]
  by_cases hk : k ∈ m.map Prod.fst
  · rw [if_pos hk]
    exact h
  · rw [if_neg hk]
    rw [List.nodup_append]
    refine ⟨h, List.nodup_singleton k, ?_⟩
    intro x hx hx2
    rw [List.mem_singleton] at hx2
    exact hk (hx2 ▸ hx)

theorem signAll_keys {Raw : Type} (ks : List PrivateKey) :
    ∀ b0 b : SignedMetadataBuilder Raw, b0.signAll ks = .ok b →
      ((b0.signatures.map Prod.fst).Nodup → (b.signatures.map Prod.fst).Nodup) ∧
      (∀ kid, kid ∈ b.signatures.map Prod.fst ↔
        kid ∈ b0.signatures.map Prod.fst ∨ kid ∈ ks.map PrivateKey.key_id) := by
  induction ks with
  | nil =>
    intro b0 b h
    unfold SignedMetadataBuilder.signAll at h
    cases h
    exact ⟨id, fun kid => by simp⟩
  | cons k ks ih =>
    intro b0 b h
    unfold SignedMetadataBuilder.signAll at h
    split at h
    · exact absurd h (by simp)
    · rename_i b1 hb1
      obtain ⟨hnd, hmem⟩ := ih b1 b h
      obtain ⟨_, _, sig, hsig, hsigs⟩ := sign_spec b0 b1 k hb1
      have hkid : sig.key_id = k.key_id := sign_key_id k b0.metadata_bytes sig hsig
      constructor
      · intro h0
        apply hnd
        rw [hsigs]
        exact nodup_keys_hmInsert _ _ _ h0
      · intro kid
        rw [hmem kid, hsigs, mem_keys_hmInsert, hkid]
        simp only [List.map_cons, List.mem_cons]
        tauto

theorem insertByKeyId_perm (s : Signature) (l : List Signature) :
    (insertByKeyId s l).Perm (s :: l) := by
  induction l with
  | nil => exact List.Perm.refl _
  | cons t ts ih =>
    unfold insertByKeyId
    by_cases h : s.key_id ≤ t.key_id
    · rw [if_pos h]
    · rw [if_neg h]
      exact (ih.cons t).trans (List.Perm.swap s t ts)

theorem insertByKeyId_sorted (s : Signature) (l : List Signature)
    (h : l.Pairwise (fun a b => a.key_id ≤ b.key_id)) :
    (insertByKeyId s l).Pairwise (fun a b => a.key_id ≤ b.key_id) := by
  induction l with
  | nil => simp [insertByKeyId]
  | cons t ts ih =>
    unfold insertByKeyId
    obtain ⟨h1, h2⟩ := List.pairwise_cons.1 h
    by_cases hle : s.key_id ≤ t.key_id
    · rw [if_pos hle]
      refine List.pairwise_cons.2 ⟨?_, h⟩
      intro b hb
      rcases List.mem_cons.1 hb with rfl | hb'
      · exact hle
      · exact hle.trans (h1 b hb')
    · rw [if_neg hle]
      refine List.pairwise_cons.2 ⟨?_, ih h2⟩
      intro b hb
      have hb' := (insertByKeyId_perm s ts).mem_iff.1 hb
      rcases List.mem_cons.1 hb' with rfl | h''
      · exact Nat.le_of_not_le hle
      · exact h1 b h''

theorem sortByKeyId_perm (l : List Signature) : (sortByKeyId l).Perm l := by
  induction l with
  | nil => exact List.Perm.refl _
  | cons s ts ih =>
    show (insertByKeyId s (sortByKeyId ts)).Perm (s :: ts)
    exact (insertByKeyId_perm s (sortByKeyId ts)).trans (ih.cons s)

theorem sortByKeyId_sorted (l : List Signature) :
    (sortByKeyId l).Pairwise (fun a b => a.key_id ≤ b.key_id) := by
  induction l with
  | nil => simp [sortByKeyId]
  | cons s ts ih => exact insertByKeyId_sorted s (sortByKeyId ts) ih

/-- Claim C4: signing twice with keys sharing a key id replaces the first
signature (the builder state is as if only the second `sign` had
happened), and `build()` emits exactly one signature per distinct key id
ever signed with, sorted ascending by key id. -/
theorem C4_sign_replaces_build_sorted {Raw M : Type} (di : DataInterchange Raw M)
    (raw : Raw) (b0 bf : SignedMetadataBuilder Raw) (ks : List PrivateKey)
    (h0 : SignedMetadataBuilder.from_raw_metadata di raw = .ok b0)
    (hs : b0.signAll ks = .ok bf) :
    (∀ (b b1 b2 : SignedMetadataBuilder Raw) (k1 k2 : PrivateKey),
      k1.key_id = k2.key_id → b.sign k1 = .ok b1 → b1.sign k2 = .ok b2 →
      ∃ sig2, PrivateKey.sign k2 b.metadata_bytes = .ok sig2 ∧
        b2.signatures = hmInsert b.signatures sig2.key_id sig2) ∧
    bf.build.signatures.Pairwise (fun x y => x.key_id ≤ y.key_id) ∧
    (bf.build.signatures.map Signature.key_id).Nodup ∧
    (∀ kid, kid ∈ bf.build.signatures.map Signature.key_id ↔
      kid ∈ ks.map PrivateKey.key_id) := by
  obtain ⟨hsig0, _, _⟩ := from_raw_spec di raw b0 h0
  obtain ⟨_, _, hmem⟩ := signAll_spec ks b0 bf hs
  obtain ⟨hndf, hkeys⟩ := signAll_keys ks b0 bf hs
  have hpair : ∀ p ∈ bf.signatures, p.1 = p.2.key_id := by
    intro p hp
    rcases hmem p hp with hp' | ⟨hkid, _⟩
    · rw [hsig0] at hp'
      exact absurd hp' (List.not_mem_nil p)
    · exact hkid
  have e : (bf.signatures.map Prod.snd).map Signature.key_id = bf.signatures.map Prod.fst := by
    rw [List.map_map]
    exact List.map_congr_left (fun p hp => (hpair p hp).symm)
  have hnd : (bf.signatures.map Prod.fst).Nodup := by
    apply hndf
    rw [hsig0]
    exact List.nodup_nil
  have sp : (bf.build.signatures).Perm (bf.signatures.map Prod.snd) :=
    sortByKeyId_perm _
  refine ⟨?_, sortByKeyId_sorted _, ?_, ?_⟩
  · intro b b1 b2 k1 k2 heq h1 h2
    obtain ⟨_, hb1, sig1, hsig1, hsigs1⟩ := sign_spec b b1 k1 h1
    obtain ⟨_, _, sig2, hsig2, hsigs2⟩ := sign_spec b1 b2 k2 h2
    rw [hb1] at hsig2
    have hk1 : sig1.key_id = k1.key_id := sign_key_id k1 b.metadata_bytes sig1 hsig1
    have hk2 : sig2.key_id = k2.key_id := sign_key_id k2 b.metadata_bytes sig2 hsig2
    refine ⟨sig2, hsig2, ?_⟩
    rw [hsigs2, hsigs1, hk1, heq, ← hk2, hmInsert_hmInsert_same]
  · rw [(sp.map Signature.key_id).nodup_iff, e]
    exact hnd
  · intro kid
    rw [(sp.map Signature.key_id).mem_iff, e]
    rw [hkeys kid, hsig0]
    simp

/-- Claim C4, witness: the build guarantees evaluated on the concrete
two-key builder run. -/
theorem C4_sign_replaces_build_sorted_witness :
    bldN.build.signatures.Pairwise (fun x y => x.key_id ≤ y.key_id) ∧
    (bldN.build.signatures.map Signature.key_id).Nodup ∧
    (1 ∈ bldN.build.signatures.map Signature.key_id ↔
      1 ∈ [sk1, sk2].map PrivateKey.key_id) :=
  ⟨(C4_sign_replaces_build_sorted diN [3, 4] ⟨[], [3, 4], [3, 4]⟩ bldN [sk1, sk2] rfl rfl).2.1,
    (C4_sign_replaces_build_sorted diN [3, 4] ⟨[], [3, 4], [3, 4]⟩ bldN [sk1, sk2] rfl rfl).2.2.1,
    (C4_sign_replaces_build_sorted diN [3, 4] ⟨[], [3, 4], [3, 4]⟩ bldN [sk1, sk2] rfl rfl).2.2.2 1⟩

/-- Claim C10: `Link::from` always succeeds and stamps `_type = "link"`;
`try_into` applied to it reconstructs the original `LinkMetadata`; and
`try_into` fails with an `Encoding` error exactly when the `_type` tag is
not `"link"`. -/
theorem C10_link_roundtrip (m : LinkMetadata) (l : Link) :
    (∃ lm : Link, Link.fromMeta m = .ok lm ∧ lm.typ = "link" ∧ lm.tryInto = .ok m) ∧
    ((∃ s, l.tryInto = .error (.Encoding s)) ↔ l.typ ≠ "link") := by
  constructor
  · refine ⟨⟨"link", m.name, m.materials, m.products, m.env, m.byproducts⟩, rfl, rfl, ?_⟩
    simp [Link.tryInto, LinkMetadata.new]
  · unfold Link.tryInto
    by_cases h : l.typ = "link"
    · rw [if_neg (by simpa using h)]
      simp [h, LinkMetadata.new]
    · rw [if_pos (by simpa using h)]
      simp [h]

theorem safe_path_ok_iff (p : List Char) :
    safe_path p = .ok () ↔
      (p ≠ [] ∧ p.head? ≠ some '/' ∧ ∀ c ∈ p.splitOn '/', c ≠ ['.', '.']) := by
  unfold safe_path
  by_cases h1 : p = []
  · rw [if_pos h1]
    simp [h1]
  · rw [if_neg h1]
    by_cases h2 : p.head? = some '/'
    · rw [if_pos h2]
      simp [h1, h2]
    · rw [if_neg h2]
      by_cases h3 : (p.splitOn '/').any (fun c => c == ['.', '.']) = true
      · rw [if_pos h3]
        obtain ⟨c, hc, he⟩ := List.any_eq_true.1 h3
        constructor
        · intro h
          exact absurd h (by simp)
        · rintro ⟨_, _, hall⟩
          exact absurd (by simpa using he) (hall c hc)
      · rw [if_neg h3]
        constructor
        · intro _
          refine ⟨h1, h2, fun c hc hcon => h3 (List.any_eq_true.2 ⟨c, hc, by simp [hcon]⟩)⟩
        · intro _
          rfl

theorem not_mem_of_mem_splitOn {x : Char} :
    ∀ (xs l : List Char), l ∈ xs.splitOn x → x ∉ l := by
  intro xs
  induction xs with
  | nil =>
    intro l hl
    rw [List.splitOn_nil] at hl
    rw [List.mem_singleton.1 hl]
    exact List.not_mem_nil x
  | cons c cs ih =>
    intro l hl
    rw [show (c :: cs).splitOn x = (c :: cs).splitOnP (· == x) from rfl,
      List.splitOnP_cons] at hl
    by_cases hc : c = x
    · rw [if_pos (by simpa using hc)] at hl
      rcases List.mem_cons.1 hl with rfl | hl'
      · exact List.not_mem_nil x
      · exact ih l hl'
    · rw [if_neg (by simpa using hc)] at hl
      obtain ⟨h, t, hht⟩ : ∃ h t, cs.splitOnP (· == x) = h :: t := by
        cases hcs : cs.splitOnP (· == x) with
        | nil => exact absurd hcs (List.splitOnP_ne_nil _ cs)
        | cons h t => exact ⟨h, t, rfl⟩
      rw [hht, List.modifyHead_cons] at hl
      rcases List.mem_cons.1 hl with rfl | hl'
      · intro hx
        rcases List.mem_cons.1 hx with rfl | hx'
        · exact hc rfl
        · have hmem : h ∈ cs.splitOn x := by
            rw [show cs.splitOn x = cs.splitOnP (· == x) from rfl, hht]
            exact List.mem_cons_self h t
          exact ih h hmem hx'
      · have hmem : l ∈ cs.splitOn x := by
          rw [show cs.splitOn x = cs.splitOnP (· == x) from rfl, hht]
          exact List.mem_cons_of_mem h hl'
        exact ih l hmem

theorem splitOn_cons_ne {x c : Char} (cs : List Char) (hc : c ≠ x) :
    ∃ h t, (c :: cs).splitOn x = (c :: h) :: t := by
  obtain ⟨h, t, hht⟩ : ∃ h t, cs.splitOnP (· == x) = h :: t := by
    cases hcs : cs.splitOnP (· == x) with
    | nil => exact absurd hcs (List.splitOnP_ne_nil _ cs)
    | cons h t => exact ⟨h, t, rfl⟩
  refine ⟨h, t, ?_⟩
  rw [show (c :: cs).splitOn x = (c :: cs).splitOnP (· == x) from rfl,
    List.splitOnP_cons, if_neg (by simpa using hc), hht, List.modifyHead_cons]

theorem splitOn_cons_self {x : Char} (cs : List Char) :
    (x :: cs).splitOn x = [] :: cs.splitOn x := by
  rw [show (x :: cs).splitOn x = (x :: cs).splitOnP (· == x) from rfl,
    List.splitOnP_cons, if_pos (by simp)]
  rfl

/-- Claim C6, counterexample: `"/foo"` is rejected by the validator, yet
it is non-empty and none of its `/`-delimited components equals `..` — so
"rejects exactly when empty or some component equals `..`" is false. -/
theorem C6_counterexample :
    safe_path ['/', 'f', 'o', 'o'] ≠ .ok () ∧
    ['/', 'f', 'o', 'o'] ≠ ([] : List Char) ∧
    ((['/', 'f', 'o', 'o'].splitOn '/').any (fun c => c == ['.', '.'])) = false := by
  decide

/-- Claim C6 (amended): the validator accepts a string exactly when it is
non-empty, does not start with `/`, and no `/`-delimited component equals
`..` exactly; `MetadataPath::new` and `TargetPath::new` store an accepted
string verbatim and propagate the validator's error otherwise; the
spec's example strings behave as listed. -/
theorem C6_amended (p : List Char) :
    (safe_path p = .ok () ↔
      (p ≠ [] ∧ p.head? ≠ some '/' ∧ ∀ c ∈ p.splitOn '/', c ≠ ['.', '.'])) ∧
    MetadataPath.new p = (safe_path p).map (fun _ => (⟨p⟩ : MetadataPath)) ∧
    TargetPath.new p = (safe_path p).map (fun _ => (⟨p⟩ : TargetPath)) ∧
    safe_path "foo".data = .ok () ∧
    safe_path "..foo".data = .ok () ∧
    safe_path "foo/..bar".data = .ok () ∧
    safe_path "foo/bar..".data = .ok () ∧
    safe_path "/foo".data ≠ .ok () ∧
    safe_path "../foo".data ≠ .ok () ∧
    safe_path "foo/..".data ≠ .ok () ∧
    safe_path "foo/../bar".data ≠ .ok () ∧
    safe_path ([] : List Char) ≠ .ok () := by
  refine ⟨safe_path_ok_iff p, ?_, ?_, by decide, by decide, by decide, by decide,
    by decide, by decide, by decide, by decide, by decide⟩
  · unfold MetadataPath.new
    cases safe_path p with
    | error e => rfl
    | ok u => cases u; rfl
  · unfold TargetPath.new
    cases safe_path p with
    | error e => rfl
    | ok u => cases u; rfl

theorem newlast_ne_dotdot (hash last : List Char) (h2 : hash ≠ []) (h3 : hash ≠ ['.']) :
    hash ++ '.' :: last ≠ ['.', '.'] := by
  intro heq
  cases hash with
  | nil => exact h2 rfl
  | cons a hs =>
    rw [List.cons_append] at heq
    injection heq with ha htail
    cases hs with
    | nil =>
      injection htail with hd hl
      exact h3 (by rw [ha])
    | cons b bs =>
      rw [List.cons_append] at htail
      injection htail with hb htail2
      exact absurd htail2 (by simp)

theorem targetPath_new_eq (p : List Char) :
    TargetPath.new p = (safe_path p).map (fun _ => (⟨p⟩ : TargetPath)) := by
  unfold TargetPath.new
  cases safe_path p with
  | error e => rfl
  | ok u => cases u; rfl

theorem withHashPrefixed_eq (t : TargetPath) (hash fn : List Char)
    (hfn : t.components.getLast? = some fn) :
    t.withHashPrefixed hash =
      TargetPath.new (List.intercalate ['/'] (t.components.dropLast ++ [hash ++ '.' :: fn])) := by
  unfold TargetPath.withHashPrefixed
  simp only [hfn]

theorem intercalate_safe (L : List (List Char)) (hne : L ≠ [])
    (hpieces : ∀ l ∈ L, '/' ∉ l) (hhead : L.head? ≠ some [])
    (hdots : ∀ l ∈ L, l ≠ ['.', '.']) :
    (List.intercalate ['/'] L).splitOn '/' = L ∧
    safe_path (List.intercalate ['/'] L) = .ok () := by
  have hsplit : (List.intercalate ['/'] L).splitOn '/' = L :=
    List.splitOn_intercalate L '/' hpieces hne
  refine ⟨hsplit, (safe_path_ok_iff _).2 ⟨?_, ?_, ?_⟩⟩
  · intro h0
    rw [h0, List.splitOn_nil] at hsplit
    exact hhead (by rw [← hsplit]; rfl)
  · intro hhd
    obtain ⟨t0, ht0⟩ : ∃ t0, List.intercalate ['/'] L = '/' :: t0 := by
      cases hs0 : List.intercalate ['/'] L with
      | nil => rw [hs0] at hhd; exact absurd hhd (by simp)
      | cons a as =>
        rw [hs0] at hhd
        simp at hhd
        exact ⟨as, by rw [hhd]⟩
    rw [ht0, splitOn_cons_self] at hsplit
    exact hhead (by rw [← hsplit]; rfl)
  · intro c hc
    rw [hsplit] at hc
    exact hdots c hc

/-- Claim C7: for a valid target path and a hash string usable as a
filename prefix (non-empty, containing no `/`, and not the bare string
`"."` — the `HashValue` display contract; hex digests satisfy all three),
`with_hash_prefix` succeeds and returns the path whose last `/`-delimited
component `c` is replaced by `<hash>.c`, with every earlier component
unchanged. -/
theorem C7_with_hash_prefixed (p hash : List Char) (tp : TargetPath)
    (hnew : TargetPath.new p = .ok tp)
    (hh1 : '/' ∉ hash) (hh2 : hash ≠ []) (hh3 : hash ≠ ['.']) :
    tp.withHashPrefixed hash = .ok ⟨List.intercalate ['/']
      (tp.components.dropLast ++ [hash ++ '.' :: tp.components.getLastD []])⟩ ∧
    TargetPath.components ⟨List.intercalate ['/']
        (tp.components.dropLast ++ [hash ++ '.' :: tp.components.getLastD []])⟩ =
      tp.components.dropLast ++ [hash ++ '.' :: tp.components.getLastD []] ∧
    (TargetPath.components ⟨List.intercalate ['/']
        (tp.components.dropLast ++ [hash ++ '.' :: tp.components.getLastD []])⟩).dropLast =
      tp.components.dropLast := by
  rw [targetPath_new_eq] at hnew
  obtain ⟨hval, htp⟩ : safe_path p = .ok () ∧ tp = ⟨p⟩ := by
    cases hs : safe_path p with
    | error e => rw [hs] at hnew; exact absurd hnew (by simp [Except.map])
    | ok u =>
      cases u
      rw [hs] at hnew
      exact ⟨rfl, by injection hnew with h; exact h.symm⟩
  subst htp
  obtain ⟨hpne, hphead, hpcomps⟩ := (safe_path_ok_iff p).1 hval
  have hcompsep : ∀ c ∈ p.splitOn '/', '/' ∉ c := fun c hc => not_mem_of_mem_splitOn p c hc
  obtain ⟨fn, hfn⟩ : ∃ fn, (p.splitOn '/').getLast? = some fn := by
    cases hg : (p.splitOn '/').getLast? with
    | none =>
      have h0 : p.splitOn '/' = [] := List.getLast?_eq_none_iff.mp hg
      have h1 : p.splitOn '/' ≠ [] := by
        rw [show p.splitOn '/' = p.splitOnP (· == '/') from rfl]
        exact List.splitOnP_ne_nil _ p
      exact absurd h0 h1
    | some fn => exact ⟨fn, rfl⟩
  have hfnmem : fn ∈ p.splitOn '/' := List.mem_of_mem_getLast? hfn
  have hnl_ne : hash ++ '.' :: fn ≠ [] := by simp
  have hpieces : ∀ l ∈ (p.splitOn '/').dropLast ++ [hash ++ '.' :: fn], '/' ∉ l := by
    intro l hl
    rcases List.mem_append.1 hl with hl' | hl'
    · exact hcompsep l (List.mem_of_mem_dropLast hl')
    · rw [List.mem_singleton.1 hl']
      intro hx
      rcases List.mem_append.1 hx with hx' | hx'
      · exact hh1 hx'
      · rcases List.mem_cons.1 hx' with h | h
        · exact absurd h (by decide)
        · exact hcompsep fn hfnmem h
  have hdots : ∀ l ∈ (p.splitOn '/').dropLast ++ [hash ++ '.' :: fn], l ≠ ['.', '.'] := by
    intro l hl
    rcases List.mem_append.1 hl with hl' | hl'
    · exact hpcomps l (List.mem_of_mem_dropLast hl')
    · rw [List.mem_singleton.1 hl']
      exact newlast_ne_dotdot hash fn hh2 hh3
  have hhead : ((p.splitOn '/').dropLast ++ [hash ++ '.' :: fn]).head? ≠ some [] := by
    obtain ⟨pc, prest, hpeq, hpc⟩ : ∃ pc prest, p = pc :: prest ∧ pc ≠ '/' := by
      cases hp0 : p with
      | nil => exact absurd hp0 hpne
      | cons pc prest =>
        refine ⟨pc, prest, rfl, ?_⟩
        intro h
        rw [hp0, h] at hphead
        exact hphead rfl
    obtain ⟨hh, tt, hcomps⟩ := splitOn_cons_ne (x := '/') prest hpc
    rw [hpeq, hcomps]
    cases tt with
    | nil =>
      intro hcon
      simp at hcon
    | cons t1 ts =>
      rw [show ((pc :: hh) :: t1 :: ts).dropLast = (pc :: hh) :: (t1 :: ts).dropLast from rfl]
      intro hcon
      rw [List.cons_append] at hcon
      simp at hcon
  obtain ⟨hsplit, hsafe⟩ := intercalate_safe ((p.splitOn '/').dropLast ++ [hash ++ '.' :: fn])
    (by simp) hpieces hhead hdots
  have hfd : (p.splitOn '/').getLastD [] = fn := by
    rw [List.getLastD_eq_getLast?, hfn]
    rfl
  refine ⟨?_, ?_, ?_⟩
  · show TargetPath.withHashPrefixed ⟨p⟩ hash = .ok ⟨List.intercalate ['/']
      ((p.splitOn '/').dropLast ++ [hash ++ '.' :: (p.splitOn '/').getLastD []])⟩
    rw [hfd, withHashPrefixed_eq ⟨p⟩ hash fn hfn]
    show TargetPath.new (List.intercalate ['/'] ((p.splitOn '/').dropLast ++ [hash ++ '.' :: fn])) = _
    rw [targetPath_new_eq, hsafe]
    rfl
  · show (List.intercalate ['/'] ((p.splitOn '/').dropLast
        ++ [hash ++ '.' :: (p.splitOn '/').getLastD []])).splitOn '/' =
      (p.splitOn '/').dropLast ++ [hash ++ '.' :: (p.splitOn '/').getLastD []]
    rw [hfd, hsplit]
  · show ((List.intercalate ['/'] ((p.splitOn '/').dropLast
        ++ [hash ++ '.' :: (p.splitOn '/').getLastD []])).splitOn '/').dropLast =
      (p.splitOn '/').dropLast
    rw [hfd, hsplit, List.dropLast_concat]

/-- Claim C7, witness: `TargetPath("foo/bar").with_hash_prefix("abc")`
yields `"foo/abc.bar"`. -/
theorem C7_with_hash_prefixed_witness :
    TargetPath.withHashPrefixed ⟨"foo/bar".data⟩ "abc".data = .ok ⟨"foo/abc.bar".data⟩ := by
  have h := (C7_with_hash_prefixed "foo/bar".data "abc".data ⟨"foo/bar".data⟩
    rfl (by decide) (by decide) (by decide)).1
  rw [h]
  rfl
